import Mathlib

/-!
Shallow embedding of the raw-output parser, hop-statistics aggregator,
deduplicator and report renderer of the mtr-tool repository
(package `mtr`, function `parseOutput` and its rendering companions
`colorizeOutput` / `generateSummary`).

Modelling conventions:
* Go `float64` values are modelled as exact rationals (`ℚ`).  The one
  place where this matters is `math.Sqrt` in the standard-deviation
  update: the Go field `StDev` holds the square root of the quantity we
  store in `stDevSq`.  Since `Real.sqrt` leaves `ℚ` (and is
  noncomputable), the development carries the square; square root is
  strictly monotone on nonnegative arguments, so every equality or
  disequality of standard deviations is equivalent to that of the
  squares.  The renderer formats this field in place of its square
  root, which does not affect any rendering-determinism statement.
* Go `int` is modelled as `Int` together with explicit int64 clamping
  (`strconv.Atoi` clamps out-of-range values) and wrap-around increment.
* Go maps are modelled as insertion-ordered association lists; the only
  map iterations in the code (max-index scan, per-entry finalization,
  column-width sum) are order-insensitive, and for the renderer the
  iteration order is kept as an explicit parameter so that
  order-independence can be proved rather than assumed.
* Each unguarded `parts[i]` slice access of the Go code is modelled as a
  `List.get?` whose failure aborts the whole parse with `none`; a Go
  nil-map-entry write (possible only through a dangling sequence
  binding) is modelled the same way.  Totality of the parser is then a
  theorem, not a definitional accident.
-/

/- Batteries marks the rational-number operations `@[irreducible]`,
which blocks the `decide`-based evaluation of the executable embedding
on concrete inputs.  Restoring the default reducibility is harmless for
soundness (the kernel never consults reducibility attributes); it only
lets concrete runs of the parser be checked by computation. -/
set_option allowUnsafeReducibility true in
attribute [semireducible] Rat.add Rat.mul Rat.sub Rat.inv Rat.ofScientific

namespace MtrTool

/-- The ASCII whitespace characters `strings.Fields` splits on
(`unicode.IsSpace` restricted to the characters that can occur here;
full Unicode white space never appears in mtr raw output). -/
def isSpaceChar (c : Char) : Bool :=
  c == ' ' || c == '\t' || c == '\n' || c == '\r' || c == '\x0b' || c == '\x0c'

/-- Accumulator-based splitter behind `goFields`; first argument is the
reversed current field. -/
def fieldsAux : List Char → List Char → List String
  | cur, [] => if cur.isEmpty then [] else [String.mk cur.reverse]
  | cur, c :: cs =>
    if isSpaceChar c then
      if cur.isEmpty then fieldsAux [] cs
      else String.mk cur.reverse :: fieldsAux [] cs
    else fieldsAux (c :: cur) cs

/-- Go `strings.Fields`: split around runs of white space, no empty fields. -/
def goFields (s : String) : List String := fieldsAux [] s.data

/-- Accumulator-based splitter behind `splitLines`. -/
def splitLinesAux : List Char → List Char → List String
  | cur, [] => [String.mk cur.reverse]
  | cur, c :: cs =>
    if c == '\n' then String.mk cur.reverse :: splitLinesAux [] cs
    else splitLinesAux (c :: cur) cs

/-- Go `strings.Split(s, "\n")`. -/
def splitLines (s : String) : List String := splitLinesAux [] s.data

/-- Go `strings.Join(elems, " ")`, used for multi-word DNS names. -/
def joinSpace : List String → String
  | [] => ""
  | [s] => s
  | s :: t => s ++ " " ++ joinSpace t

/-- Decimal digit run to a natural number (accumulator form). -/
def digitsToNat : Nat → List Char → Option Nat
  | acc, [] => some acc
  | acc, c :: cs =>
    if c.isDigit then digitsToNat (acc * 10 + (c.toNat - 48)) cs else none

def int64Max : Int := 2 ^ 63 - 1

def int64Min : Int := -(2 ^ 63)

/-- `strconv.Atoi` returns the value clamped to the int64 range together
with a range error that `parseOutput` discards. -/
def clampInt64 (n : Int) : Int :=
  if n > int64Max then int64Max else if n < int64Min then int64Min else n

/-- Syntactic part of `strconv.Atoi`: optional sign then a nonempty
digit run, consuming the whole string. -/
def atoiCore : List Char → Option Int
  | [] => none
  | '+' :: rest =>
    if rest = [] then none else (digitsToNat 0 rest).map (fun n => (n : Int))
  | '-' :: rest =>
    if rest = [] then none else (digitsToNat 0 rest).map (fun n => -(n : Int))
  | cs => (digitsToNat 0 cs).map (fun n => (n : Int))

/-- Go `strconv.Atoi` as used at the call site `hopNumInt, _ := strconv.Atoi(hopNum)`:
the error is discarded, so a syntax error yields 0 and a range error
yields the clamped value. -/
def atoi (s : String) : Int :=
  match atoiCore s.data with
  | none => 0
  | some n => clampInt64 n

/-- The Go `hopNumInt++` on a 64-bit int (wrap-around at the top). -/
def incInt64 (n : Int) : Int :=
  if n = int64Max then int64Min else n + 1

/-- Go `strconv.Itoa` (Lean's decimal rendering of `Int` coincides). -/
def itoa (n : Int) : String := toString n

/-- The Go `hopNumInt` after the 1-based conversion (`parseOutput`
lines 360–361): parse the raw index field, discard the error,
increment. -/
def hopNumIntOf (s : String) : Int := incInt64 (atoi s)

/-- The Go `hopNum` after the 1-based conversion (`parseOutput`
line 362). -/
def hopNumOf (s : String) : String := itoa (hopNumIntOf s)

/-- `math.MaxFloat64` as an exact rational: `(2 - 2⁻⁵²)·2¹⁰²³ = 2¹⁰²⁴ - 2⁹⁷¹`,
written as an explicit integer literal so that concrete runs of the
parser evaluate by kernel computation (`maxFloat64Q_eq` below proves
the closed form). -/
def maxFloat64Q : ℚ := mkRat (179769313486231570814527423731704356798070567525844996598917476803157260780028538760589558632766878171540458953514382464234321326889464182768467546703537516986049910576551282076245490090389328944075868508455133942304583236903222948165808559332123348274797826204144723168738177180919299881250404026184124858368 : Int) 1

/-- Longest leading digit run and the remainder. -/
def takeDigits : List Char → List Char × List Char
  | [] => ([], [])
  | c :: cs =>
    if c.isDigit then
      let p := takeDigits cs
      (c :: p.1, p.2)
    else ([], c :: cs)

/-- Value of a digit run. -/
def digitsNat (ds : List Char) : Nat :=
  ds.foldl (fun a c => a * 10 + (c.toNat - 48)) 0

/-- Decimal floating literal grammar of `strconv.ParseFloat`:
`[+-]? (digits [. digits*] | . digits) ([eE] [+-]? digits)?`, whole
string consumed, exact rational value.  (The special forms `Inf`/`NaN`,
hexadecimal floats and underscore digit separators that `ParseFloat`
also accepts never denote a latency sample and are not modelled;
binary64 rounding is not applied, the exact value is kept.) -/
def parseFloatCore (cs0 : List Char) : Option ℚ :=
  let sp : ℚ × List Char :=
    match cs0 with
    | '+' :: r => (1, r)
    | '-' :: r => (-1, r)
    | r => (1, r)
  let ip := takeDigits sp.2
  let fp : Option (List Char) × List Char :=
    match ip.2 with
    | '.' :: r =>
      let d := takeDigits r
      (some d.1, d.2)
    | r => (none, r)
  if ip.1 = [] ∧ (fp.1 = none ∨ fp.1 = some []) then none
  else
    let mant : ℚ :=
      (digitsNat ip.1 : ℚ) +
        (match fp.1 with
         | some d => (digitsNat d : ℚ) / 10 ^ d.length
         | none => 0)
    match fp.2 with
    | [] => some (sp.1 * mant)
    | e :: r =>
      if e = 'e' ∨ e = 'E' then
        let es : Int × List Char :=
          match r with
          | '+' :: r2 => (1, r2)
          | '-' :: r2 => (-1, r2)
          | r2 => (1, r2)
        let ed := takeDigits es.2
        if ed.1 = [] ∨ ed.2 ≠ [] then none
        else some (sp.1 * mant * (10 : ℚ) ^ (es.1 * (digitsNat ed.1 : Int)))
      else none

/-- Go `strconv.ParseFloat(s, 64)` at the parser's call site: a value
whose magnitude exceeds `math.MaxFloat64` carries a range error, and
the caller treats any error as a failed parse. -/
def parseFloatQ (s : String) : Option ℚ :=
  match parseFloatCore s.data with
  | none => none
  | some v => if v < -maxFloat64Q ∨ maxFloat64Q < v then none else some v

/-- Association-list lookup (Go map read). -/
def lookupA {α : Type} : List (String × α) → String → Option α
  | [], _ => none
  | (k, v) :: t, q => if k = q then some v else lookupA t q

/-- Association-list write (Go map assignment: overwrite or append). -/
def insertA {α : Type} : List (String × α) → String → α → List (String × α)
  | [], k, v => [(k, v)]
  | (k1, v1) :: t, k, v =>
    if k1 = k then (k, v) :: t else (k1, v1) :: insertA t k v

/-- In-place update through the `*HopData` pointer held in the Go map
(no effect on a missing key; the parser only updates existing keys). -/
def updateA {α : Type} : List (String × α) → String → (α → α) → List (String × α)
  | [], _, _ => []
  | (k1, v) :: t, k, f =>
    if k1 = k then (k, f v) :: t else (k1, v) :: updateA t k f

/-- Go `receivedPings[hopNum]++` (missing key reads as the zero value). -/
def bumpA (m : List (String × Nat)) (k : String) : List (String × Nat) :=
  insertA m k ((lookupA m k).getD 0 + 1)

/-- The Go struct `HopData`.  `stDevSq` carries the square of the Go
`StDev` field (see the file comment). -/
structure HopData where
  hop : Int
  hostname : String
  ip : String
  loss : ℚ
  sent : Int
  last : ℚ
  avg : ℚ
  best : ℚ
  worst : ℚ
  stDevSq : ℚ
  deriving DecidableEq, Repr

/-- The mutable state of one `parseOutput` scan: `hopMap`, `seqMap` and
`receivedPings` of the Go function. -/
structure ParseState where
  hopMap : List (String × HopData)
  seqMap : List (String × String)
  received : List (String × Nat)
  deriving DecidableEq, Repr

def initState : ParseState := ⟨[], [], []⟩

/-- The hop record created on first sight of a hop index
(`parseOutput` lines 365–378). -/
def initHop (hopNumInt : Int) (count : Int) : HopData :=
  { hop := hopNumInt, hostname := "???", ip := "", loss := 100,
    sent := count, last := 0, avg := 0, best := maxFloat64Q,
    worst := 0, stDevSq := 0 }

/-- `hopMap[hopNum] = &HopData{...}` on first sight, otherwise no-op. -/
def ensureHop (count : Int) (st : ParseState) (hopNum : String) (hopNumInt : Int) :
    ParseState :=
  if (lookupA st.hopMap hopNum).isSome then st
  else { st with hopMap := insertA st.hopMap hopNum (initHop hopNumInt count) }

/-- The statistics update a resolved, parseable ping sample applies to a
hop (`parseOutput` lines 413–435): set `last`, lower `best`, raise
`worst`, advance the running mean with the pre-incremented received
count, and for a second or later sample recompute the dispersion.  The
Go `for` loop adds the identical term `(hop.Last-hop.Avg)²` exactly
`received-1` times, rendered here as a multiplication. -/
def updateHopStats (ms : ℚ) (received : ℚ) (h : HopData) : HopData :=
  let h1 := { h with last := ms }
  let h2 := if ms < h1.best then { h1 with best := ms } else h1
  let h3 := if ms > h2.worst then { h2 with worst := ms } else h2
  let newAvg := (h3.avg * (received - 1) + ms) / received
  let h4 := { h3 with avg := newAvg }
  if received > 1 then
    let sumSq := (received - 1) * ((h4.last - h4.avg) * (h4.last - h4.avg))
    { h4 with stDevSq := sumSq / (received - 1) }
  else h4

/-- The `h`-record update (`parseOutput` lines 383–389): record the
address, and seed the hostname with it if still unresolved. -/
def hUpdate (addr : String) (h : HopData) : HopData :=
  let h1 := { h with ip := addr }
  if h1.hostname = "???" then { h1 with hostname := addr } else h1

/-- The `d`-record update (`parseOutput` lines 391–394): the joined DNS
name always overwrites the hostname. -/
def dUpdate (name : String) (h : HopData) : HopData :=
  { h with hostname := name }

/-- One iteration of the line loop of `parseOutput` (lines 346–440).
`none` models the two ways the Go code could crash on this line: an
out-of-range `parts[i]` access or a write through a nil `*HopData`
fetched for a dangling sequence binding. -/
def processLine (count : Int) (st : ParseState) (line : String) : Option ParseState :=
  if line = "" then some st else
  let parts := goFields line
  if parts.length < 2 then some st else
  match parts.get? 0, parts.get? 1 with
  | some recordType, some hopNumRaw =>
    let hopNumInt := hopNumIntOf hopNumRaw
    let hopNum := hopNumOf hopNumRaw
    let st1 := ensureHop count st hopNum hopNumInt
    if recordType = "h" then
      if 3 ≤ parts.length then
        match parts.get? 2 with
        | some addr =>
          some { st1 with hopMap := updateA st1.hopMap hopNum (hUpdate addr) }
        | none => none
      else some st1
    else if recordType = "d" then
      if 3 ≤ parts.length then
        some { st1 with
          hopMap := updateA st1.hopMap hopNum (dUpdate (joinSpace (parts.drop 2))) }
      else some st1
    else if recordType = "x" then
      if 3 ≤ parts.length then
        match parts.get? 2 with
        | some seqId =>
          some { st1 with seqMap := insertA st1.seqMap seqId hopNum }
        | none => none
      else some st1
    else if recordType = "p" then
      if 4 ≤ parts.length then
        match parts.get? 3 with
        | some seq =>
          match lookupA st1.seqMap seq with
          | some hopForSeq =>
            let st2 := { st1 with received := bumpA st1.received hopNum }
            match parts.get? 2 with
            | some latStr =>
              match parseFloatQ latStr with
              | some usec =>
                let ms := usec / 1000
                match lookupA st2.hopMap hopForSeq with
                | some hopF =>
                  let n : ℚ := ((lookupA st2.received hopNum).getD 0 : Nat)
                  some { st2 with
                    hopMap := insertA st2.hopMap hopForSeq (updateHopStats ms n hopF) }
                | none => none
              | none => some st2
            | none => none
          | none => some st1
        | none => none
      else some st1
    else some st1
  | _, _ => none

/-- The full line loop. -/
def scanLines (count : Int) : ParseState → List String → Option ParseState
  | st, [] => some st
  | st, l :: ls =>
    match processLine count st l with
    | some st1 => scanLines count st1 ls
    | none => none

/-- State of the parser after the single top-to-bottom scan of the raw
output (before sentinel cleanup, loss computation and deduplication). -/
def scanOutput (output : String) (count : Int) : Option ParseState :=
  scanLines count initState (splitLines output)

/-- The max-index scan over the hop map (`parseOutput` lines 444–449);
a fold with `max` is insensitive to the Go map's iteration order. -/
def maxHopOf (m : List (String × HopData)) : Int :=
  m.foldl (fun acc p => if p.2.hop > acc then p.2.hop else acc) 0

/-- The loss computation of `parseOutput` lines 458–463. -/
def lossOf (count : Int) (receivedCount : Nat) : ℚ :=
  if count > 0 then 100 * ((count : ℚ) - (receivedCount : ℚ)) / (count : ℚ)
  else 100

/-- Per-entry finalization (`parseOutput` lines 452–464): reset a
still-infinite `best` to 0 and derive the loss percentage. -/
def finalizeHop (count : Int) (recv : List (String × Nat)) (key : String)
    (h : HopData) : HopData :=
  let h1 := if h.best = maxFloat64Q then { h with best := 0 } else h
  { h1 with loss := lossOf count ((lookupA recv key).getD 0) }

/-- The finalization pass over the whole hop map; per-entry and hence
insensitive to the Go map's iteration order. -/
def finalizeMap (count : Int) (st : ParseState) : List (String × HopData) :=
  st.hopMap.map (fun p => (p.1, finalizeHop count st.received p.1 p.2))

/-- The index walk `for i := 1; i <= maxHop; i++` collecting existing
hops in index order (`parseOutput` lines 468–469). -/
def collectHops (m : List (String × HopData)) (maxHop : Int) : List HopData :=
  (List.range maxHop.toNat).filterMap (fun i => lookupA m (itoa ((i : Int) + 1)))

/-- The duplicate-collapsing emission loop (`parseOutput` lines 467–479);
the accumulator is the last *emitted* hop.  The Go guard `i > 1` is
subsumed by `lastHop != nil`: a non-nil last hop was emitted at a
strictly smaller index, so the current index is at least 2. -/
def dedupHops : Option HopData → List HopData → List HopData
  | _, [] => []
  | last?, h :: t =>
    match last? with
    | some lh =>
      if (h.ip ≠ "" ∧ h.ip = lh.ip) ∨ (h.hostname ≠ "???" ∧ h.hostname = lh.hostname)
      then dedupHops (some lh) t
      else h :: dedupHops (some h) t
    | none => h :: dedupHops (some h) t

/-- `parseOutput` with the crash possibilities surfaced as `none`. -/
def parseOutputO (output : String) (count : Int) : Option (List HopData) :=
  match scanOutput output count with
  | some st =>
    let maxHop := maxHopOf st.hopMap
    some (dedupHops none (collectHops (finalizeMap count st) maxHop))
  | none => none

/-- `func parseOutput(output string, count int) []HopData`. -/
def parseOutput (output : String) (count : Int) : List HopData :=
  (parseOutputO output count).getD []

/-! ### Renderer (`colorizeOutput`, `generateSummary`) -/

/-- ANSI reset, Go `colorReset = "\033[0m"`. -/
def colorReset : String := "\x1b[0m"

def colorRed : String := "\x1b[31m"

def colorGreen : String := "\x1b[32m"

def colorYellow : String := "\x1b[33m"

/-- The `columnWidths` map of the Go file, as the association list of
its entries. -/
def columnWidths : List (String × Nat) :=
  [("hop", 3), ("loss", 6), ("snt", 3), ("last", 7), ("avg", 7),
   ("best", 7), ("worst", 7), ("stdev", 7), ("host", 40)]

/-- A `columnWidths[key]` read (deterministic regardless of the Go
map's iteration order). -/
def cw (k : String) : Nat := (lookupA columnWidths k).getD 0

/-- Go `fmt.Sprintf("%-*s", w, s)`: left-justify by right-padding with
spaces to width `w`. -/
def padRight (s : String) (w : Nat) : String :=
  s ++ String.mk (List.replicate (w - s.length) ' ')

/-- `%.1f` on a nonnegative exact rational: round to one decimal.
(Go rounds the underlying binary64 to the nearest decimal; on the exact
rational model this is round half up, which coincides on every value a
binary64 can take except exact decimal ties, which binary64 cannot
represent at one decimal place.) -/
def fmtN1 (x : ℚ) : String :=
  let n : Int := ⌊x * 10 + 1 / 2⌋
  toString (n / 10) ++ "." ++ toString (n % 10)

/-- `%.1f` including the sign. -/
def fmtF1 (x : ℚ) : String :=
  if x < 0 then "-" ++ fmtN1 (-x) else fmtN1 x

/-- Leading-match test behind `containsStr`. -/
def startsWithList : List Char → List Char → Bool
  | _, [] => true
  | [], _ :: _ => false
  | b :: bs, a :: as => a == b && startsWithList bs as

/-- Go `strings.Contains(hay, needle)` on the char-list representation. -/
def containsList : List Char → List Char → Bool
  | hay, needle =>
    if startsWithList hay needle then true
    else
      match hay with
      | [] => false
      | _ :: t => containsList t needle

/-- Go `strings.Contains`. -/
def containsStr (s sub : String) : Bool := containsList s.data sub.data

/-- The header row of the table (`colorizeOutput` lines 238–247). -/
def headerRow : String :=
  padRight "Hop" (cw "hop") ++ "  " ++ padRight "Loss%" (cw "loss") ++ "  " ++
  padRight "Snt" (cw "snt") ++ "  " ++ padRight "Last" (cw "last") ++ "  " ++
  padRight "Avg" (cw "avg") ++ "  " ++ padRight "Best" (cw "best") ++ "  " ++
  padRight "Wrst" (cw "worst") ++ "  " ++ padRight "StDev" (cw "stdev") ++ "  " ++
  padRight "Host" (cw "host") ++ "\n"

def repeatChar (c : Char) (n : Nat) : String := String.mk (List.replicate n c)

/-- `totalWidth`: the sum of `width + 2` over the `columnWidths` map in
its (nondeterministic) iteration order, kept as an explicit list
parameter (`colorizeOutput` lines 250–253). -/
def totalWidthOf (order : List (String × Nat)) : Nat :=
  order.foldl (fun acc p => acc + (p.2 + 2)) 0

/-- Loss-column severity color (`colorizeOutput` lines 258–264). -/
def lossColorOf (l : ℚ) : String :=
  if l > 20 then colorRed else if l > 5 then colorYellow else colorGreen

/-- The host label (`colorizeOutput` lines 266–270). -/
def hostStrOf (h : HopData) : String :=
  if h.ip ≠ "" ∧ h.hostname ≠ h.ip ∧ containsStr h.hostname h.ip = false then
    h.hostname ++ " (" ++ h.ip ++ ")"
  else h.hostname

/-- One data row (`colorizeOutput` lines 272–282).  The StDev column
prints the carried `stDevSq` in place of its square root (file
comment). -/
def hopRow (h : HopData) : String :=
  padRight (toString h.hop) (cw "hop") ++ "  " ++
  lossColorOf h.loss ++ padRight (fmtF1 h.loss) (cw "loss") ++ colorReset ++ "  " ++
  padRight (toString h.sent) (cw "snt") ++ "  " ++
  padRight (fmtF1 h.last) (cw "last") ++ "  " ++
  padRight (fmtF1 h.avg) (cw "avg") ++ "  " ++
  padRight (fmtF1 h.best) (cw "best") ++ "  " ++
  padRight (fmtF1 h.worst) (cw "worst") ++ "  " ++
  padRight (fmtF1 h.stDevSq) (cw "stdev") ++ "  " ++
  padRight (hostStrOf h) (cw "host") ++ "\n"

/-- `func colorizeOutput(hops []HopData) string`, with the iteration
order of the `columnWidths` map over which Go computes `totalWidth`
made an explicit parameter. -/
def colorizeOutput (order : List (String × Nat)) (hops : List HopData) : String :=
  headerRow ++ repeatChar '-' (totalWidthOf order) ++ "\n" ++
  String.join (hops.map hopRow)

/-- `func generateSummary(hops []HopData) string`. -/
def generateSummary (hops : List HopData) : String :=
  match hops with
  | [] => "\nNo route data available.\n"
  | h0 :: _ =>
    let worstLoss := hops.foldl (fun w h => if h.loss > w.loss then h else w) h0
    let worstLatency := hops.foldl (fun w h => if h.avg > w.avg then h else w) h0
    let lossLine :=
      if worstLoss.loss > 0 then
        "Worst packet loss at hop " ++ toString worstLoss.hop ++ " (" ++
          worstLoss.hostname ++ "): " ++ fmtF1 worstLoss.loss ++ "%\n"
      else "No packet loss detected\n"
    let latLine :=
      "Highest average latency at hop " ++ toString worstLatency.hop ++ " (" ++
        worstLatency.hostname ++ "): " ++ fmtF1 worstLatency.avg ++ " ms\n"
    let lastHop := hops.getLast?.getD h0
    "\nSummary:\n--------\n" ++ lossLine ++ latLine ++
    "\nEnd-to-end metrics for " ++ lastHop.hostname ++ ":\n" ++
    "  Average: " ++ fmtF1 lastHop.avg ++ " ms\n" ++
    "  Best: " ++ fmtF1 lastHop.best ++ " ms\n" ++
    "  Worst: " ++ fmtF1 lastHop.worst ++ " ms\n" ++
    "  Standard Deviation: " ++ fmtF1 lastHop.stDevSq ++ " ms\n"

/-- The rendered report a finished run prints for its hop list: table
plus summary (`Run` lines 536–540, the two components the claims
cover). -/
def renderReport (order : List (String × Nat)) (hops : List HopData) : String :=
  colorizeOutput order hops ++ generateSummary hops

/-! ### Derived notions the claims quantify over -/

/-- The statistics-update chain a hop undergoes for its resolved,
parseable samples (`parseOutput` lines 408–435 restricted to one hop),
with each sample's running-mean divisor given *explicitly*: the program
reads it from the received counter keyed by the `p` line's **printed**
index, so in general it is an arbitrary value, not the hop's own sample
ordinal (`c1_sample_attribution`, and the misaligned run in
`c3_counterexample`). -/
def applySamples : List (ℚ × ℚ) → HopData → HopData
  | [], h => h
  | s :: t, h => applySamples t (updateHopStats s.1 s.2 h)

/-- The *aligned* divisor sequence: sample `i` arrives with divisor
`n0 + i`.  This is what the scan produces exactly when every `p` line's
printed hop index agrees with its sequence binding (as real mtr raw
output emits), so that each hop's own counter advances in lockstep with
its samples. -/
def alignedSeq : List ℚ → Nat → List (ℚ × ℚ)
  | [], _ => []
  | v :: t, n0 => (v, ((n0 + 1 : Nat) : ℚ)) :: alignedSeq t (n0 + 1)

/-- The aligned chain in direct recursive form
(`applySamples_alignedSeq` proves the two agree). -/
def foldSamples : List ℚ → HopData → Nat → HopData
  | [], h, _ => h
  | v :: t, h, n0 => foldSamples t (updateHopStats v ((n0 + 1 : Nat) : ℚ) h) (n0 + 1)

/-- A fresh hop after receiving exactly the samples `vs` (in order)
under the aligned divisor sequence — an assumption, not a guarantee of
the program. -/
def aggregateSamples (count : Int) (vs : List ℚ) : HopData :=
  applySamples (alignedSeq vs 0) (initHop 1 count)

/-- Modelled from the spec: the *intended* dispersion — the sample
variance (square of the sample standard deviation) over all collected
latencies of a hop — which the spec prescribes in place of the
reference recurrence. -/
def sampleVarianceQ (vs : List ℚ) : ℚ :=
  (vs.map (fun v => (v - vs.sum / vs.length) ^ 2)).sum / ((vs.length : ℚ) - 1)

/-- Modelled from the spec: the population variance (square of the
population standard deviation) over all collected latencies of a hop. -/
def populationVarianceQ (vs : List ℚ) : ℚ :=
  (vs.map (fun v => (v - vs.sum / vs.length) ^ 2)).sum / (vs.length : ℚ)

/-- The final received count the scan associates with 1-based hop index
`hopIdx` (the value the loss computation reads). -/
def recvOf (output : String) (count : Int) (hopIdx : Int) : Nat :=
  match scanOutput output count with
  | some st => (lookupA st.received (itoa hopIdx)).getD 0
  | none => 0

/-- The 1-based hop index a line contributes to the hop map, when it
does (at least two fields). -/
def lineIndex (line : String) : Option Int :=
  if line = "" then none
  else
    let parts := goFields line
    if parts.length < 2 then none
    else (parts.get? 1).map hopNumIntOf

/-- All 1-based hop indices announced by the raw input. -/
def processedIndices (output : String) : List Int :=
  (splitLines output).filterMap lineIndex

/-- A line whose record-type tag is `p`. -/
def hasPTag (line : String) : Bool := decide ((goFields line).head? = some "p")

/-- The input contains no `p` records at all. -/
def noPRecords (output : String) : Prop :=
  ∀ line ∈ splitLines output, hasPTag line = false

/-- What the deduplicator guarantees about two *adjacent* emitted hops
`a, b` (in this order): `b` survived the skip test against `a`. -/
def dedupAdjOk (a b : HopData) : Prop :=
  ¬(b.ip ≠ "" ∧ b.ip = a.ip) ∧ ¬(b.hostname ≠ "???" ∧ b.hostname = a.hostname)

/-! ## Theorems -/

/-- The sentinel literal is `2¹⁰²⁴ - 2⁹⁷¹ = math.MaxFloat64`. -/
theorem maxFloat64Q_eq : maxFloat64Q = 2 ^ 1024 - 2 ^ 971 := by
  rw [maxFloat64Q, Rat.mkRat_one]
  norm_num

/-- C1 (counterexample): input `x 0 5` then `p 3 1000 5`.  The `x`
record binds sequence `5` to hop `1`; the `p` record resolves through
that binding and writes its latency statistics to hop `1`
(`last = 1 ms`), yet the received counter incremented is the one of hop
`4` — the hop index printed on the `p` line itself — and hop `1`'s
counter stays absent, contradicting the claim that the resolved hop's
received counter is incremented. -/
theorem c1_counterexample :
    (scanOutput "x 0 5\np 3 1000 5" 1).map (fun st => lookupA st.seqMap "5") =
      some (some "1") ∧
    (scanOutput "x 0 5\np 3 1000 5" 1).map
        (fun st => (lookupA st.hopMap "1").map HopData.last) = some (some 1) ∧
    (scanOutput "x 0 5\np 3 1000 5" 1).map (fun st => lookupA st.received "1") =
      some none ∧
    (scanOutput "x 0 5\np 3 1000 5" 1).map (fun st => lookupA st.received "4") =
      some (some 1) := by
  decide

/-- C2 (counterexample): input `x 0 7` then `p 0 abc 7` with probe
count 1.  The latency field `abc` fails numeric parsing, yet the
received counter of hop `1` is incremented (and the final loss is
consequently 0%, not 100%), contradicting the claim that an
uninterpretable latency leaves the received counter alone. -/
theorem c2_counterexample :
    parseFloatQ "abc" = none ∧
    (scanOutput "x 0 7\np 0 abc 7" 1).map (fun st => lookupA st.received "1") =
      some (some 1) ∧
    (parseOutput "x 0 7\np 0 abc 7" 1).map HopData.loss = [100 * ((1 : ℚ) - 1) / 1] := by
  decide

/-- C3 (counterexample, two failures).  First: input `x 0 1` then
`p 0 -1000 1` — the single sample parses successfully to `-1 ms`
(witnessed by `last = -1`), but the final `worst` is `0`, not
`max(v₁) = -1`: `worst` starts at 0 and is only ever raised.  Second:
the misaligned run `x 0 1 / p 5 1000 1 / x 0 2 / p 7 2000 2` — hop 1
receives exactly the two samples 1 ms and 2 ms (witnessed by
`best = 1`, `worst = 2`, `last = 2`), yet its final `avg` is `2`, not
the mean `3/2`: the running mean divides by the received counter keyed
by each `p` line's printed index (`6` resp. `8`), so both divisors are
1. -/
theorem c3_counterexample :
    (parseFloatQ "-1000" = some (-1000) ∧
      (parseOutput "x 0 1\np 0 -1000 1" 5).map HopData.last = [-1] ∧
      (parseOutput "x 0 1\np 0 -1000 1" 5).map HopData.worst = [0] ∧
      ((0 : ℚ) = -1 → False)) ∧
    ((scanOutput "x 0 1\np 5 1000 1\nx 0 2\np 7 2000 2" 3).map
        (fun st => (lookupA st.hopMap "1").map
          (fun h => (h.best, h.worst, h.last, h.avg))) =
      some (some (1, 2, 2, 2)) ∧
      (scanOutput "x 0 1\np 5 1000 1\nx 0 2\np 7 2000 2" 3).map
        (fun st => (lookupA st.received "6", lookupA st.received "8")) =
      some (some 1, some 1) ∧
      ((2 : ℚ) = 3 / 2 → False)) := by
  decide

/-- C4 (the code at the failing input): three samples 10 ms, 10 ms,
40 ms for hop 1.  The code's dispersion is `(last - avg)² = 400`
(standard deviation 20), while the true sample variance is 300
(standard deviation √300 ≈ 17.32) and the population variance is 200
(√200 ≈ 14.14); equality of standard deviations is equivalent to
equality of their squares on nonnegatives. -/
theorem c4_code_stddev_diverges :
    (parseOutput "x 0 1\np 0 10000 1\nx 0 2\np 0 10000 2\nx 0 3\np 0 40000 3" 3).map
        HopData.stDevSq = [400] ∧
    sampleVarianceQ [10, 10, 40] = 300 ∧
    populationVarianceQ [10, 10, 40] = 200 ∧
    ((400 : ℚ) = 300 → False) ∧ ((400 : ℚ) = 200 → False) := by
  decide

/-- C5 (counterexample): input `x 0 a` then `x 1 b`.  Both hops stay
unresolved (`hostname = "???"`, empty address), and the final list
keeps them adjacent with identical hostname and identical address,
contradicting the claim that the final list never contains two adjacent
entries with identical address or identical hostname. -/
theorem c5_counterexample :
    (parseOutput "x 0 a\nx 1 b" 0).map HopData.hostname = ["???", "???"] ∧
    (parseOutput "x 0 a\nx 1 b" 0).map HopData.ip = ["", ""] := by
  decide

/-- C6 (counterexample): one correlated, parseable sample with
configured count `-1` (reachable: the CLI passes `-count` through
unvalidated).  The code returns loss 100 because its guard is
`count > 0`, while the claimed formula `100·(sent-received)/sent`
yields `100·(-1-1)/(-1) = 200`. -/
theorem c6_counterexample :
    (parseOutput "x 0 1\np 0 5000 1" (-1)).map HopData.loss = [100] ∧
    recvOf "x 0 1\np 0 5000 1" (-1) 1 = 1 ∧
    ((100 : ℚ) = 100 * ((-1 : ℚ) - 1) / (-1) → False) := by
  decide

/-- C7 (counterexample): the single line `h 5 1.2.3.4` creates exactly
the hop with index 6, and no hop with index 1, so the indices present
after the scan are not contiguous from 1. -/
theorem c7_counterexample :
    (scanOutput "h 5 1.2.3.4" 1).map (fun st => st.hopMap.map (fun p => p.2.hop)) =
      some [6] := by
  decide

/-- C8 (counterexample): the single line `q 0 z` has the unrecognized
record type `q`, yet processing it creates a hop record (the final hop
list is nonempty), so the state is not left unchanged and the final
list differs from the one for an absent line. -/
theorem c8_counterexample :
    (goFields "q 0 z").head? = some "q" ∧
    parseOutput "q 0 z" 1 =
      [{ hop := 1, hostname := "???", ip := "", loss := 100, sent := 1, last := 0,
         avg := 0, best := 0, worst := 0, stDevSq := 0 }] ∧
    parseOutput "" 1 = [] := by
  decide

/-! ### Helper lemmas on the scan step -/

theorem ensureHop_seqMap (c : Int) (st : ParseState) (k : String) (n : Int) :
    (ensureHop c st k n).seqMap = st.seqMap := by
  unfold ensureHop; split <;> rfl

theorem ensureHop_received (c : Int) (st : ParseState) (k : String) (n : Int) :
    (ensureHop c st k n).received = st.received := by
  unfold ensureHop; split <;> rfl

theorem lookupA_insertA_self {α : Type} (m : List (String × α)) (k : String) (v : α) :
    lookupA (insertA m k v) k = some v := by
  induction m with
  | nil => simp [insertA, lookupA]
  | cons p t ih =>
    by_cases h : p.1 = k
    · simp [insertA, h, lookupA]
    · simp [insertA, h, lookupA, ih]

theorem lookupA_insertA_ne {α : Type} (m : List (String × α)) (k q : String) (v : α)
    (hne : k ≠ q) : lookupA (insertA m k v) q = lookupA m q := by
  induction m with
  | nil => simp [insertA, lookupA, hne]
  | cons p t ih =>
    by_cases h : p.1 = k
    · simp [insertA, h, lookupA, hne]
    · simp [insertA, h, lookupA, ih]

theorem lookupA_bumpA_self (m : List (String × Nat)) (k : String) :
    lookupA (bumpA m k) k = some ((lookupA m k).getD 0 + 1) := by
  unfold bumpA; exact lookupA_insertA_self ..

/-- C1 (amended): on a `p` record `p i lat seq` whose sequence id `seq`
is bound, the statistics `last`/`best`/`worst`/`avg` are written to the
hop resolved via the binding, but the received counter that is
incremented — and the counter value the running mean divides by — is
the one keyed by the hop index printed on the `p` line itself (the two
coincide only when the printed index matches the binding); on an
unbound sequence id no sample is recorded, no counter changes and no
error is raised, though a default hop record for the printed index is
still created if absent. -/
theorem c1_sample_attribution (count : Int) (st : ParseState)
    (line i lat seq : String)
    (hne : line ≠ "") (hf : goFields line = ["p", i, lat, seq]) :
    (∀ hopK usec hopF,
      lookupA st.seqMap seq = some hopK →
      parseFloatQ lat = some usec →
      lookupA (ensureHop count st (hopNumOf i) (hopNumIntOf i)).hopMap hopK = some hopF →
      processLine count st line = some
        { hopMap := insertA (ensureHop count st (hopNumOf i) (hopNumIntOf i)).hopMap hopK
            (updateHopStats (usec / 1000)
              (((lookupA st.received (hopNumOf i)).getD 0 + 1 : ℕ) : ℚ) hopF),
          seqMap := st.seqMap,
          received := bumpA st.received (hopNumOf i) }) ∧
    (lookupA st.seqMap seq = none →
      processLine count st line = some (ensureHop count st (hopNumOf i) (hopNumIntOf i))) := by
  constructor
  · intro hopK usec hopF hseq hlat hhk
    simp only [processLine, if_neg hne, hf]
    simp [ensureHop_seqMap, ensureHop_received, hseq, hlat, hhk,
      lookupA_bumpA_self]
  · intro hseq
    simp only [processLine, if_neg hne, hf]
    simp [ensureHop_seqMap, hseq]

/-- Witness for `c1_sample_attribution`: the line `p 3 1000 5` against
a state in which an `x` record bound sequence `5` to hop `1` (both
conjuncts exercised, the second at sequence id `9`). -/
theorem c1_sample_attribution_witness :
    (processLine 1 ⟨[("1", initHop 1 1)], [("5", "1")], []⟩ "p 3 1000 5" = some
      { hopMap := insertA (ensureHop 1 ⟨[("1", initHop 1 1)], [("5", "1")], []⟩ (hopNumOf "3") (hopNumIntOf "3")).hopMap "1"
          (updateHopStats ((1000 : ℚ) / 1000) (((0 : ℕ) + 1 : ℕ) : ℚ) (initHop 1 1)),
        seqMap := [("5", "1")],
        received := bumpA [] (hopNumOf "3") }) ∧
    (processLine 1 ⟨[("1", initHop 1 1)], [("5", "1")], []⟩ "p 3 1000 9" = some
      (ensureHop 1 ⟨[("1", initHop 1 1)], [("5", "1")], []⟩ (hopNumOf "3") (hopNumIntOf "3"))) := by
  constructor
  · exact (c1_sample_attribution 1 ⟨[("1", initHop 1 1)], [("5", "1")], []⟩
      "p 3 1000 5" "3" "1000" "5" (by decide) (by decide)).1 "1" 1000 (initHop 1 1)
      (by decide) (by decide) (by decide)
  · exact (c1_sample_attribution 1 ⟨[("1", initHop 1 1)], [("5", "1")], []⟩
      "p 3 1000 9" "3" "1000" "9" (by decide) (by decide)).2 (by decide)

/-- C2 (amended): on a `p` record with a bound sequence id whose
latency field fails numeric parsing, the received counter keyed by the
hop index printed on the `p` line is nevertheless incremented (it was
incremented before the parse was attempted), while no statistics field
of any hop changes — the hop map is exactly the one after the
create-on-first-sight step and the sequence map is untouched. -/
theorem c2_unparseable_latency (count : Int) (st : ParseState)
    (line i lat seq hopK : String)
    (hne : line ≠ "") (hf : goFields line = ["p", i, lat, seq])
    (hseq : lookupA st.seqMap seq = some hopK)
    (hbad : parseFloatQ lat = none) :
    processLine count st line = some
      { hopMap := (ensureHop count st (hopNumOf i) (hopNumIntOf i)).hopMap,
        seqMap := st.seqMap,
        received := bumpA st.received (hopNumOf i) } := by
  simp only [processLine, if_neg hne, hf]
  simp [ensureHop_seqMap, ensureHop_received, hseq, hbad]

/-- Witness for `c2_unparseable_latency`: the line `p 0 abc 7` against
a state in which sequence `7` is bound to hop `1`. -/
theorem c2_unparseable_latency_witness :
    processLine 1 ⟨[("1", initHop 1 1)], [("7", "1")], []⟩ "p 0 abc 7" = some
      { hopMap := (ensureHop 1 ⟨[("1", initHop 1 1)], [("7", "1")], []⟩ (hopNumOf "0") (hopNumIntOf "0")).hopMap,
        seqMap := [("7", "1")],
        received := bumpA [] (hopNumOf "0") } := by
  exact c2_unparseable_latency 1 ⟨[("1", initHop 1 1)], [("7", "1")], []⟩
    "p 0 abc 7" "0" "abc" "7" "1" (by decide) (by decide) (by decide) (by decide)

/-- C8 (amended): a line with fewer than two whitespace-separated
fields (or an empty line) leaves the parser state entirely unchanged;
a line with at least two fields whose record-type tag is not one of
`h`, `d`, `x`, `p` changes nothing except that a default hop record for
the line's hop index is created if absent (the sequence map and the
received counters are untouched, and no field of any existing hop
changes). -/
theorem c8_unrecognized_lines (count : Int) (st : ParseState) (line : String) :
    (line = "" → processLine count st line = some st) ∧
    (line ≠ "" → (goFields line).length < 2 → processLine count st line = some st) ∧
    (∀ t i rest, line ≠ "" → goFields line = t :: i :: rest →
      t ≠ "h" → t ≠ "d" → t ≠ "x" → t ≠ "p" →
      processLine count st line =
        some (ensureHop count st (hopNumOf i) (hopNumIntOf i))) := by
  refine ⟨fun h0 => by simp [processLine, h0], fun hne hlen => ?_, ?_⟩
  · simp [processLine, hne, hlen]
  · intro t i rest hne hf ht hd hx hp
    simp [processLine, hne, hf, ht, hd, hx, hp]

/-- Witness for `c8_unrecognized_lines` at `line = "q 0 z"` (and at the
empty and one-field lines), with a concrete starting state. -/
theorem c8_unrecognized_lines_witness :
    processLine 1 initState "" = some initState ∧
    processLine 1 initState "w" = some initState ∧
    processLine 1 initState "q 0 z" = some (ensureHop 1 initState (hopNumOf "0") (hopNumIntOf "0")) := by
  refine ⟨(c8_unrecognized_lines 1 initState "").1 rfl,
          (c8_unrecognized_lines 1 initState "w").2.1 (by decide) (by decide),
          (c8_unrecognized_lines 1 initState "q 0 z").2.2 "q" "0" ["z"] (by decide)
            (by decide) (by decide) (by decide) (by decide) (by decide)⟩

/-! ### The statistics-update chain (claim C3) -/

theorem updateHopStats_avg (ms r : ℚ) (h : HopData) :
    (updateHopStats ms r h).avg = (h.avg * (r - 1) + ms) / r := by
  unfold updateHopStats
  dsimp only
  split <;> split <;> split <;> rfl

theorem updateHopStats_last (ms r : ℚ) (h : HopData) :
    (updateHopStats ms r h).last = ms := by
  unfold updateHopStats
  dsimp only
  split <;> split <;> split <;> rfl

theorem updateHopStats_best (ms r : ℚ) (h : HopData) :
    (updateHopStats ms r h).best = if ms < h.best then ms else h.best := by
  unfold updateHopStats
  dsimp only
  split <;> split <;> split <;> simp_all

theorem updateHopStats_worst (ms r : ℚ) (h : HopData) :
    (updateHopStats ms r h).worst = if ms > h.worst then ms else h.worst := by
  unfold updateHopStats
  dsimp only
  split <;> split <;> split <;> simp_all

theorem foldSamples_avg (vs : List ℚ) (h : HopData) (n0 : ℕ) (hne : vs ≠ []) :
    (foldSamples vs h n0).avg = (h.avg * (n0 : ℚ) + vs.sum) / ((n0 : ℚ) + vs.length) := by
  induction vs generalizing h n0 with
  | nil => exact absurd rfl hne
  | cons v t ih =>
    rcases eq_or_ne t [] with ht | ht
    · subst ht
      simp only [foldSamples, updateHopStats_avg, List.sum_cons, List.sum_nil,
        List.length_cons, List.length_nil]
      rw [div_eq_div_iff (by positivity) (by positivity)]
      push_cast
      ring
    · have hpos : ((n0 + 1 : ℕ) : ℚ) ≠ 0 := by positivity
      simp only [foldSamples, ih _ _ ht, updateHopStats_avg, List.sum_cons,
        List.length_cons]
      rw [div_mul_cancel₀ _ hpos, div_eq_div_iff (by positivity) (by positivity)]
      push_cast
      ring

theorem foldSamples_best (vs : List ℚ) (h : HopData) (n0 : ℕ) :
    (foldSamples vs h n0).best = vs.foldl (fun b v => if v < b then v else b) h.best := by
  induction vs generalizing h n0 with
  | nil => rfl
  | cons v t ih =>
    simp only [foldSamples, List.foldl_cons, ih, updateHopStats_best]

theorem foldSamples_worst (vs : List ℚ) (h : HopData) (n0 : ℕ) :
    (foldSamples vs h n0).worst = vs.foldl (fun w v => if v > w then v else w) h.worst := by
  induction vs generalizing h n0 with
  | nil => rfl
  | cons v t ih =>
    simp only [foldSamples, List.foldl_cons, ih, updateHopStats_worst]

theorem foldlMin_le (vs : List ℚ) (b : ℚ) :
    vs.foldl (fun b v => if v < b then v else b) b ≤ b ∧
    ∀ v ∈ vs, vs.foldl (fun b v => if v < b then v else b) b ≤ v := by
  induction vs generalizing b with
  | nil => simp
  | cons w t ih =>
    have step : (if w < b then w else b) ≤ b ∧ (if w < b then w else b) ≤ w := by
      split <;> constructor <;> first | rfl | linarith [show w < b from by assumption] | linarith [show ¬ w < b from by assumption]
    rw [List.foldl_cons]
    refine ⟨le_trans (ih (if w < b then w else b)).1 step.1, ?_⟩
    intro v hv
    rcases List.mem_cons.mp hv with hv | hv
    · subst hv
      exact le_trans (ih (if v < b then v else b)).1 step.2
    · exact (ih (if w < b then w else b)).2 v hv

theorem foldlMin_mem (vs : List ℚ) (b : ℚ) :
    vs.foldl (fun b v => if v < b then v else b) b ∈ vs ∨
    vs.foldl (fun b v => if v < b then v else b) b = b := by
  induction vs generalizing b with
  | nil => simp
  | cons w t ih =>
    rw [List.foldl_cons]
    rcases ih (if w < b then w else b) with hm | he
    · exact Or.inl (List.mem_cons_of_mem _ hm)
    · rw [he]
      split
      · exact Or.inl (List.mem_cons_self _ _)
      · exact Or.inr rfl

theorem foldlMax_ge (vs : List ℚ) (b : ℚ) :
    b ≤ vs.foldl (fun w v => if v > w then v else w) b ∧
    ∀ v ∈ vs, v ≤ vs.foldl (fun w v => if v > w then v else w) b := by
  induction vs generalizing b with
  | nil => simp
  | cons w t ih =>
    have step : b ≤ (if w > b then w else b) ∧ w ≤ (if w > b then w else b) := by
      split <;> constructor <;> first | rfl | linarith [show w > b from by assumption] | linarith [show ¬ w > b from by assumption]
    rw [List.foldl_cons]
    refine ⟨le_trans step.1 (ih (if w > b then w else b)).1, ?_⟩
    intro v hv
    rcases List.mem_cons.mp hv with hv | hv
    · subst hv
      exact le_trans step.2 (ih (if v > b then v else b)).1
    · exact (ih (if w > b then w else b)).2 v hv

theorem foldlMax_mem (vs : List ℚ) (b : ℚ) :
    vs.foldl (fun w v => if v > w then v else w) b ∈ vs ∨
    vs.foldl (fun w v => if v > w then v else w) b = b := by
  induction vs generalizing b with
  | nil => simp
  | cons w t ih =>
    rw [List.foldl_cons]
    rcases ih (if w > b then w else b) with hm | he
    · exact Or.inl (List.mem_cons_of_mem _ hm)
    · rw [he]
      split
      · exact Or.inl (List.mem_cons_self _ _)
      · exact Or.inr rfl

theorem applySamples_alignedSeq (vs : List ℚ) (h : HopData) (n0 : Nat) :
    applySamples (alignedSeq vs n0) h = foldSamples vs h n0 := by
  induction vs generalizing h n0 with
  | nil => rfl
  | cons v t ih => simp only [alignedSeq, applySamples, foldSamples, ih]

/-- C3 (amended): for a hop that receives `k ≥ 1` successfully parsed
latency samples `v₁..vₖ`, **provided the run is aligned** — the divisor
sequence fed to the running mean is the hop's own sample ordinal, which
the scan produces exactly when every `p` line's printed hop index
agrees with its sequence binding, as real mtr raw output emits — the
final `avg` is exactly the arithmetic mean (exact rationals model the
floating-point computation, so "within floating-point tolerance"
becomes equality), and — provided the samples are nonnegative, which
every real latency is — `best` is the minimum and `worst` the maximum
of the samples.  Both hypotheses are forced by `c3_counterexample`:
with misaligned printed indices the divisor is the printed-index
counter and a hop with samples 1 ms, 2 ms ends with `avg = 2`, not
`3/2`; and `worst` starts at 0 and is only ever raised, so an
all-negative run leaves `worst = 0 > max`.  (The bound
`v < maxFloat64Q` holds for every sample a parseable finite float can
produce; `best` starts at that sentinel.) -/
theorem c3_mean_min_max (count : Int) (vs : List ℚ) (ds : List (ℚ × ℚ))
    (halign : ds = alignedSeq vs 0) (hne : vs ≠ [])
    (hnn : ∀ v ∈ vs, 0 ≤ v) (hub : ∀ v ∈ vs, v < maxFloat64Q) :
    (applySamples ds (initHop 1 count)).avg = vs.sum / vs.length ∧
    ((applySamples ds (initHop 1 count)).best ∈ vs ∧
      ∀ v ∈ vs, (applySamples ds (initHop 1 count)).best ≤ v) ∧
    ((applySamples ds (initHop 1 count)).worst ∈ vs ∧
      ∀ v ∈ vs, v ≤ (applySamples ds (initHop 1 count)).worst) := by
  subst halign
  obtain ⟨v0, hv0⟩ : ∃ v, v ∈ vs := by
    cases vs with
    | nil => exact absurd rfl hne
    | cons a t => exact ⟨a, List.mem_cons_self a t⟩
  refine ⟨?_, ⟨?_, ?_⟩, ⟨?_, ?_⟩⟩
  · rw [applySamples_alignedSeq, foldSamples_avg vs _ 0 hne]
    simp [initHop]
  · rcases foldlMin_mem vs maxFloat64Q with hm | he
    · rw [applySamples_alignedSeq, foldSamples_best, initHop]
      exact hm
    · exfalso
      have h1 := (foldlMin_le vs maxFloat64Q).2 v0 hv0
      rw [he] at h1
      exact absurd (lt_of_le_of_lt h1 (hub v0 hv0)) (lt_irrefl _)
  · intro v hv
    rw [applySamples_alignedSeq, foldSamples_best, initHop]
    exact (foldlMin_le vs maxFloat64Q).2 v hv
  · rcases foldlMax_mem vs 0 with hm | he
    · rw [applySamples_alignedSeq, foldSamples_worst, initHop]
      exact hm
    · have h1 := (foldlMax_ge vs 0).2 v0 hv0
      rw [he] at h1
      have h2 : v0 = 0 := le_antisymm h1 (hnn v0 hv0)
      rw [applySamples_alignedSeq, foldSamples_worst, initHop, he, ← h2]
      exact hv0
  · intro v hv
    rw [applySamples_alignedSeq, foldSamples_worst, initHop]
    exact (foldlMax_ge vs 0).2 v hv

/-- Witness for `c3_mean_min_max`: the spec's own scenario, samples
10 ms, 20 ms, 30 ms under the aligned divisor sequence. -/
theorem c3_mean_min_max_witness :
    (applySamples (alignedSeq [10, 20, 30] 0) (initHop 1 5)).avg =
      ([10, 20, 30] : List ℚ).sum / ([10, 20, 30] : List ℚ).length ∧
    ((applySamples (alignedSeq [10, 20, 30] 0) (initHop 1 5)).best ∈ ([10, 20, 30] : List ℚ) ∧
      ∀ v ∈ ([10, 20, 30] : List ℚ),
        (applySamples (alignedSeq [10, 20, 30] 0) (initHop 1 5)).best ≤ v) ∧
    ((applySamples (alignedSeq [10, 20, 30] 0) (initHop 1 5)).worst ∈ ([10, 20, 30] : List ℚ) ∧
      ∀ v ∈ ([10, 20, 30] : List ℚ),
        v ≤ (applySamples (alignedSeq [10, 20, 30] 0) (initHop 1 5)).worst) :=
  c3_mean_min_max 5 [10, 20, 30] (alignedSeq [10, 20, 30] 0) rfl (by decide)
    (by decide) (by decide)

/-! ### Deduplication (claim C5) -/

theorem dedupHops_chain (l : List HopData) (lh : HopData) :
    List.Chain dedupAdjOk lh (dedupHops (some lh) l) := by
  induction l generalizing lh with
  | nil => exact List.Chain.nil
  | cons h t ih =>
    simp only [dedupHops]
    split
    · exact ih lh
    · rename_i hkeep
      exact List.Chain.cons ⟨(not_or.mp hkeep).1, (not_or.mp hkeep).2⟩ (ih h)

theorem dedupHops_chain_none (l : List HopData) :
    List.Chain' dedupAdjOk (dedupHops none l) := by
  cases l with
  | nil => exact trivial
  | cons h t => exact dedupHops_chain t h

theorem dedupHops_head (l : List HopData) :
    (dedupHops none l).head? = l.head? := by
  cases l <;> simp [dedupHops]

/-- C5 (amended): in the final hop list no entry shares a *non-empty*
address with its immediate predecessor, and no entry shares a
*resolved* (non-`"???"`) hostname with its immediate predecessor — two
adjacent hops may still carry the identical empty address and the
identical `"???"` hostname, as `c5_counterexample` shows; and the first
existing hop is always emitted first (deduplication never removes it). -/
theorem c5_adjacent_dedup :
    (∀ output count, List.Chain' dedupAdjOk (parseOutput output count)) ∧
    (∀ hops : List HopData, (dedupHops none hops).head? = hops.head?) := by
  constructor
  · intro output count
    unfold parseOutput parseOutputO
    cases hscan : scanOutput output count with
    | none => exact trivial
    | some st => exact dedupHops_chain_none _
  · exact dedupHops_head

/-- Witness for `c5_adjacent_dedup` at the concrete run of
`c5_counterexample` and a one-hop list. -/
theorem c5_adjacent_dedup_witness :
    List.Chain' dedupAdjOk (parseOutput "x 0 a\nx 1 b" 0) ∧
    (dedupHops none [initHop 1 0]).head? = [initHop 1 0].head? :=
  ⟨c5_adjacent_dedup.1 "x 0 a\nx 1 b" 0, c5_adjacent_dedup.2 [initHop 1 0]⟩

/-! ### Renderer determinism (claim C9) -/

theorem totalWidthOf_eq_sum (order : List (String × Nat)) :
    totalWidthOf order = (order.map (fun p => p.2 + 2)).sum := by
  suffices h : ∀ (l : List (String × Nat)) (acc : Nat),
      List.foldl (fun acc p => acc + (p.2 + 2)) acc l = acc + (l.map (fun p => p.2 + 2)).sum by
    simpa [totalWidthOf] using h order 0
  intro l
  induction l with
  | nil => simp
  | cons p t ih =>
    intro acc
    simp [ih, Nat.add_assoc]

/-- C9: rendering (table plus summary) is a pure, deterministic
function of the final ordered hop list.  The only nondeterminism in the
code is the Go map iteration order over `columnWidths` used to total
the separator width; for any two iteration orders (permutations of the
map's entries) the rendered reports are byte-identical, so rendering
the same list twice yields the same string. -/
theorem c9_render_deterministic (ord1 ord2 : List (String × Nat)) (hops : List HopData)
    (h1 : ord1.Perm columnWidths) (h2 : ord2.Perm columnWidths) :
    renderReport ord1 hops = renderReport ord2 hops := by
  unfold renderReport colorizeOutput
  have e : totalWidthOf ord1 = totalWidthOf ord2 := by
    rw [totalWidthOf_eq_sum, totalWidthOf_eq_sum]
    exact ((h1.map (fun p => p.2 + 2)).sum_eq).trans ((h2.map (fun p => p.2 + 2)).sum_eq).symm
  rw [e]

/-- Witness for `c9_render_deterministic`: the reversed iteration order
against the canonical one, on a one-hop list. -/
theorem c9_render_deterministic_witness :
    renderReport columnWidths.reverse [initHop 1 3] =
      renderReport columnWidths [initHop 1 3] :=
  c9_render_deterministic columnWidths.reverse columnWidths [initHop 1 3]
    (List.reverse_perm columnWidths) (List.Perm.refl columnWidths)

/-! ### Association-list and state-step lemmas (claims C6, C7, C10) -/

theorem lookupA_mem {α : Type} (m : List (String × α)) (k : String) (v : α)
    (h : lookupA m k = some v) : (k, v) ∈ m := by
  induction m with
  | nil => simp [lookupA] at h
  | cons p t ih =>
    obtain ⟨a, b⟩ := p
    rw [lookupA] at h
    by_cases hk : a = k
    · rw [if_pos hk] at h
      injection h with h
      subst hk
      subst h
      exact List.mem_cons_self _ _
    · rw [if_neg hk] at h
      exact List.mem_cons_of_mem _ (ih h)

theorem mem_insertA {α : Type} (m : List (String × α)) (k : String) (v : α)
    (p : String × α) (h : p ∈ insertA m k v) : p ∈ m ∨ p = (k, v) := by
  induction m with
  | nil => simpa [insertA] using h
  | cons q t ih =>
    obtain ⟨a, b⟩ := q
    rw [insertA] at h
    by_cases hk : a = k
    · rw [if_pos hk] at h
      rcases List.mem_cons.mp h with h | h
      · exact Or.inr h
      · exact Or.inl (List.mem_cons_of_mem _ h)
    · rw [if_neg hk] at h
      rcases List.mem_cons.mp h with h | h
      · exact Or.inl (h ▸ List.mem_cons_self _ _)
      · rcases ih h with h | h
        · exact Or.inl (List.mem_cons_of_mem _ h)
        · exact Or.inr h

theorem mem_updateA {α : Type} (m : List (String × α)) (k : String) (f : α → α)
    (p : String × α) (h : p ∈ updateA m k f) :
    p ∈ m ∨ ∃ v, (k, v) ∈ m ∧ p = (k, f v) := by
  induction m with
  | nil => simp [updateA] at h
  | cons q t ih =>
    obtain ⟨a, b⟩ := q
    rw [updateA] at h
    by_cases hk : a = k
    · rw [if_pos hk] at h
      rcases List.mem_cons.mp h with h | h
      · subst hk
        exact Or.inr ⟨b, List.mem_cons_self _ _, h⟩
      · exact Or.inl (List.mem_cons_of_mem _ h)
    · rw [if_neg hk] at h
      rcases List.mem_cons.mp h with h | h
      · exact Or.inl (h ▸ List.mem_cons_self _ _)
      · rcases ih h with h | ⟨v, hv, hp⟩
        · exact Or.inl (List.mem_cons_of_mem _ h)
        · exact Or.inr ⟨v, List.mem_cons_of_mem _ hv, hp⟩

theorem lookupA_isSome_insertA {α : Type} (m : List (String × α)) (k q : String) (v : α) :
    (lookupA (insertA m k v) q).isSome ↔ q = k ∨ (lookupA m q).isSome := by
  by_cases hk : k = q
  · subst hk
    simp [lookupA_insertA_self]
  · rw [lookupA_insertA_ne m k q v hk]
    have : ¬ q = k := fun h => hk h.symm
    simp [this]

theorem lookupA_updateA_isSome {α : Type} (m : List (String × α)) (k q : String) (f : α → α) :
    (lookupA (updateA m k f) q).isSome = (lookupA m q).isSome := by
  induction m with
  | nil => simp [updateA]
  | cons p t ih =>
    obtain ⟨a, b⟩ := p
    rw [updateA]
    by_cases hk : a = k
    · rw [if_pos hk]
      by_cases hq : a = q
      · subst hk
        rw [lookupA, lookupA, if_pos hq, if_pos hq]
        rfl
      · subst hk
        rw [lookupA, lookupA, if_neg hq, if_neg hq]
    · rw [if_neg hk]
      by_cases hq : a = q
      · rw [lookupA, lookupA, if_pos hq, if_pos hq]
      · rw [lookupA, lookupA, if_neg hq, if_neg hq]
        exact ih

theorem ensureHop_lookup_isSome (c : Int) (st : ParseState) (k : String) (n : Int)
    (q : String) :
    (lookupA (ensureHop c st k n).hopMap q).isSome ↔
      q = k ∨ (lookupA st.hopMap q).isSome := by
  unfold ensureHop
  split
  · rename_i hs
    constructor
    · exact fun h => Or.inr h
    · intro h
      rcases h with h | h
      · subst h
        exact hs
      · exact h
  · exact lookupA_isSome_insertA st.hopMap k q (initHop n c)

theorem ensureHop_mem (c : Int) (st : ParseState) (k : String) (n : Int)
    (p : String × HopData) (h : p ∈ (ensureHop c st k n).hopMap) :
    p ∈ st.hopMap ∨ p = (k, initHop n c) := by
  unfold ensureHop at h
  split at h
  · exact Or.inl h
  · exact mem_insertA st.hopMap k (initHop n c) p h

theorem updateHopStats_hop (ms r : ℚ) (h : HopData) :
    (updateHopStats ms r h).hop = h.hop := by
  unfold updateHopStats
  dsimp only
  split <;> split <;> split <;> rfl

theorem hUpdate_hop (addr : String) (h : HopData) : (hUpdate addr h).hop = h.hop := by
  unfold hUpdate
  dsimp only
  split <;> rfl

theorem dUpdate_hop (nm : String) (h : HopData) : (dUpdate nm h).hop = h.hop := rfl

theorem lineIndex_two (line : String) (a b : String) (rest : List String)
    (h0 : line ≠ "") (hgf : goFields line = a :: b :: rest) :
    lineIndex line = some (hopNumIntOf b) := by
  have hlen : ¬ ((a :: b :: rest).length < 2) := by
    simp only [List.length_cons]
    omega
  simp [lineIndex, h0, hgf, hlen, List.get?]

/-- The complete effect summary of one line-loop iteration, for every
line whose processing succeeds: (1) the keys of the hop map afterwards
are the old keys plus the line's converted index key; (2) the
key-equals-`itoa`-of-hop-field invariant is preserved; (3) a line whose
tag is not `p` leaves the received counters untouched; (4) the sequence
map is either untouched or extended by one binding to the line's own
index key. -/
theorem processLine_effects (count : Int) (st : ParseState) (line : String)
    (st1 : ParseState) (h : processLine count st line = some st1) :
    (∀ key, (lookupA st1.hopMap key).isSome ↔
      ((lineIndex line).map itoa = some key ∨ (lookupA st.hopMap key).isSome)) ∧
    ((∀ p ∈ st.hopMap, p.1 = itoa p.2.hop) → ∀ p ∈ st1.hopMap, p.1 = itoa p.2.hop) ∧
    (hasPTag line = false → st1.received = st.received) ∧
    (st1.seqMap = st.seqMap ∨ ∃ sid key, (lineIndex line).map itoa = some key ∧
      st1.seqMap = insertA st.seqMap sid key) := by
  by_cases h0 : line = ""
  · rw [processLine, if_pos h0] at h
    injection h with h
    subst h
    exact ⟨fun key => by simp [lineIndex, h0], fun hk => hk, fun _ => rfl, Or.inl rfl⟩
  · cases hgf : goFields line with
    | nil =>
      simp only [processLine, if_neg h0, hgf, List.length_nil] at h
      rw [if_pos (by omega)] at h
      injection h with h
      subst h
      exact ⟨fun key => by simp [lineIndex, h0, hgf], fun hk => hk, fun _ => rfl, Or.inl rfl⟩
    | cons a tl =>
      cases tl with
      | nil =>
        simp only [processLine, if_neg h0, hgf, List.length_cons, List.length_nil] at h
        rw [if_pos (by omega)] at h
        injection h with h
        subst h
        refine ⟨fun key => ?_, fun hk => hk, fun _ => rfl, Or.inl rfl⟩
        have : lineIndex line = none := by
          simp [lineIndex, h0, hgf]
        simp [this]
      | cons b rest =>
        have hlen : ¬ ((a :: b :: rest).length < 2) := by
          simp only [List.length_cons]
          omega
        have hline : lineIndex line = some (hopNumIntOf b) := lineIndex_two line a b rest h0 hgf
        have hkeys1 : ∀ key,
            (lookupA (ensureHop count st (hopNumOf b) (hopNumIntOf b)).hopMap key).isSome ↔
              ((lineIndex line).map itoa = some key ∨ (lookupA st.hopMap key).isSome) := by
          intro key
          rw [ensureHop_lookup_isSome, hline]
          constructor
          · rintro (rfl | hold)
            · exact Or.inl rfl
            · exact Or.inr hold
          · rintro (hkey | hold)
            · exact Or.inl (Option.some.inj hkey).symm
            · exact Or.inr hold
        have hinv1 : (∀ p ∈ st.hopMap, p.1 = itoa p.2.hop) →
            ∀ p ∈ (ensureHop count st (hopNumOf b) (hopNumIntOf b)).hopMap,
              p.1 = itoa p.2.hop := by
          intro hk p hp
          rcases ensureHop_mem count st (hopNumOf b) (hopNumIntOf b) p hp with hp | hp
          · exact hk p hp
          · subst hp
            rfl
        simp only [processLine, if_neg h0, hgf, if_neg hlen, List.get?] at h
        by_cases ha : a = "h"
        · rw [if_pos ha] at h
          cases rest with
          | nil =>
            rw [if_neg (by simp)] at h
            injection h with h
            subst h
            exact ⟨hkeys1, hinv1, fun _ => ensureHop_received .., Or.inl (ensureHop_seqMap ..)⟩
          | cons c rest2 =>
            rw [if_pos (by simp only [List.length_cons]; omega)] at h
            simp only [List.get?] at h
            injection h with h
            subst h
            refine ⟨fun key => ?_, fun hk p hp => ?_, fun _ => ensureHop_received ..,
              Or.inl (ensureHop_seqMap ..)⟩
            · simp only [lookupA_updateA_isSome]
              exact hkeys1 key
            · simp only at hp
              rcases mem_updateA _ _ _ p hp with hp | ⟨v, hv, hp⟩
              · exact hinv1 hk p hp
              · subst hp
                have := hinv1 hk _ hv
                simp only at this
                rw [this, hUpdate_hop]
        · rw [if_neg ha] at h
          by_cases hd : a = "d"
          · rw [if_pos hd] at h
            cases rest with
            | nil =>
              rw [if_neg (by simp)] at h
              injection h with h
              subst h
              exact ⟨hkeys1, hinv1, fun _ => ensureHop_received .., Or.inl (ensureHop_seqMap ..)⟩
            | cons c rest2 =>
              rw [if_pos (by simp only [List.length_cons]; omega)] at h
              injection h with h
              subst h
              refine ⟨fun key => ?_, fun hk p hp => ?_, fun _ => ensureHop_received ..,
                Or.inl (ensureHop_seqMap ..)⟩
              · simp only [lookupA_updateA_isSome]
                exact hkeys1 key
              · simp only at hp
                rcases mem_updateA _ _ _ p hp with hp | ⟨v, hv, hp⟩
                · exact hinv1 hk p hp
                · subst hp
                  have := hinv1 hk _ hv
                  simp only at this
                  rw [this, dUpdate_hop]
          · rw [if_neg hd] at h
            by_cases hx : a = "x"
            · rw [if_pos hx] at h
              cases rest with
              | nil =>
                rw [if_neg (by simp)] at h
                injection h with h
                subst h
                exact ⟨hkeys1, hinv1, fun _ => ensureHop_received ..,
                  Or.inl (ensureHop_seqMap ..)⟩
              | cons c rest2 =>
                rw [if_pos (by simp only [List.length_cons]; omega)] at h
                simp only [List.get?] at h
                injection h with h
                subst h
                refine ⟨hkeys1, hinv1, fun _ => ensureHop_received .., Or.inr ?_⟩
                refine ⟨c, hopNumOf b, ?_, ?_⟩
                · rw [hline]
                  rfl
                · rw [ensureHop_seqMap]
            · rw [if_neg hx] at h
              by_cases hp : a = "p"
              · rw [if_pos hp] at h
                cases rest with
                | nil =>
                  rw [if_neg (by simp)] at h
                  injection h with h
                  subst h
                  refine ⟨hkeys1, hinv1, fun _ => ensureHop_received ..,
                    Or.inl (ensureHop_seqMap ..)⟩
                | cons c rest2 =>
                  cases rest2 with
                  | nil =>
                    rw [if_neg (by simp)] at h
                    injection h with h
                    subst h
                    refine ⟨hkeys1, hinv1, fun _ => ensureHop_received ..,
                      Or.inl (ensureHop_seqMap ..)⟩
                  | cons d rest3 =>
                    rw [if_pos (by simp only [List.length_cons]; omega)] at h
                    simp only [List.get?] at h
                    have hptag : hasPTag line = true := by
                      simp [hasPTag, hgf, hp]
                    cases hseq : lookupA (ensureHop count st (hopNumOf b) (hopNumIntOf b)).seqMap d with
                    | none =>
                      rw [hseq] at h
                      dsimp only at h
                      injection h with h
                      subst h
                      exact ⟨hkeys1, hinv1, fun hfalse => absurd (hfalse ▸ hptag) Bool.false_ne_true,
                        Or.inl (ensureHop_seqMap ..)⟩
                    | some hopK =>
                      rw [hseq] at h
                      dsimp only at h
                      cases hlat : parseFloatQ c with
                      | none =>
                        rw [hlat] at h
                        dsimp only at h
                        injection h with h
                        subst h
                        exact ⟨hkeys1, hinv1, fun hfalse => absurd (hfalse ▸ hptag) Bool.false_ne_true,
                          Or.inl (ensureHop_seqMap ..)⟩
                      | some usec =>
                        rw [hlat] at h
                        dsimp only at h
                        cases hhk : lookupA (ensureHop count st (hopNumOf b) (hopNumIntOf b)).hopMap hopK with
                        | none =>
                          rw [hhk] at h
                          dsimp only at h
                          cases h
                        | some hopF =>
                          rw [hhk] at h
                          dsimp only at h
                          injection h with h
                          subst h
                          refine ⟨fun key => ?_, fun hk p hp3 => ?_,
                            fun hfalse => absurd (hfalse ▸ hptag) Bool.false_ne_true,
                            Or.inl (ensureHop_seqMap ..)⟩
                          · have hpres : (lookupA (ensureHop count st (hopNumOf b) (hopNumIntOf b)).hopMap hopK).isSome := by
                              rw [hhk]
                              rfl
                            simp only [lookupA_isSome_insertA]
                            constructor
                            · rintro (rfl | hor)
                              · exact (hkeys1 key).mp hpres
                              · exact (hkeys1 key).mp hor
                            · intro hor
                              exact Or.inr ((hkeys1 key).mpr hor)
                          · simp only at hp3
                            rcases mem_insertA _ _ _ p hp3 with hp3 | hp3
                            · exact hinv1 hk p hp3
                            · subst hp3
                              have := hinv1 hk _ (lookupA_mem _ _ _ hhk)
                              simp only at this
                              rw [this, updateHopStats_hop]
              · rw [if_neg hp] at h
                injection h with h
                subst h
                refine ⟨hkeys1, hinv1, fun _ => ensureHop_received ..,
                  Or.inl (ensureHop_seqMap ..)⟩

/-- The well-formedness the scan maintains for the sequence map: every
binding points at an existing hop-map key (exactly what makes the Go
nil-pointer write unreachable). -/
theorem processLine_seqInv (count : Int) (st : ParseState) (line : String)
    (st1 : ParseState) (h : processLine count st line = some st1)
    (hinv : ∀ s k, lookupA st.seqMap s = some k → (lookupA st.hopMap k).isSome) :
    ∀ s k, lookupA st1.seqMap s = some k → (lookupA st1.hopMap k).isSome := by
  obtain ⟨hkeys, -, -, hseq⟩ := processLine_effects count st line st1 h
  intro s k hk
  rcases hseq with he | ⟨sid, key, hkey, he⟩
  · rw [he] at hk
    exact (hkeys k).mpr (Or.inr (hinv s k hk))
  · rw [he] at hk
    by_cases hs : sid = s
    · subst hs
      rw [lookupA_insertA_self] at hk
      injection hk with hk
      exact (hkeys k).mpr (Or.inl (hk ▸ hkey))
    · rw [lookupA_insertA_ne _ _ _ _ hs] at hk
      exact (hkeys k).mpr (Or.inr (hinv s k hk))

/-- Under the sequence-map well-formedness invariant, one line-loop
iteration never fails: every slice access is behind a length guard and
the one nil-pointer hazard is unreachable. -/
theorem processLine_some (count : Int) (st : ParseState) (line : String)
    (hinv : ∀ s k, lookupA st.seqMap s = some k → (lookupA st.hopMap k).isSome) :
    ∃ st1, processLine count st line = some st1 := by
  by_cases h0 : line = ""
  · exact ⟨st, by rw [processLine, if_pos h0]⟩
  · cases hgf : goFields line with
    | nil =>
      refine ⟨st, ?_⟩
      rw [processLine, if_neg h0]
      simp [hgf]
    | cons a tl =>
      cases tl with
      | nil =>
        refine ⟨st, ?_⟩
        rw [processLine, if_neg h0]
        simp [hgf]
      | cons b rest =>
        have hlen : ¬ ((a :: b :: rest).length < 2) := by
          simp only [List.length_cons]
          omega
        simp only [processLine, if_neg h0, hgf, if_neg hlen, List.get?]
        by_cases ha : a = "h"
        · simp only [if_pos ha]
          cases rest with
          | nil =>
            simp only [if_neg (show ¬ (3 ≤ ([a, b] : List String).length) by simp)]
            exact ⟨_, rfl⟩
          | cons c rest2 =>
            simp only [if_pos (show 3 ≤ (a :: b :: c :: rest2).length by
              simp only [List.length_cons]; omega), List.get?]
            exact ⟨_, rfl⟩
        · simp only [if_neg ha]
          by_cases hd : a = "d"
          · simp only [if_pos hd]
            cases rest with
            | nil =>
              simp only [if_neg (show ¬ (3 ≤ ([a, b] : List String).length) by simp)]
              exact ⟨_, rfl⟩
            | cons c rest2 =>
              simp only [if_pos (show 3 ≤ (a :: b :: c :: rest2).length by
                simp only [List.length_cons]; omega)]
              exact ⟨_, rfl⟩
          · simp only [if_neg hd]
            by_cases hx : a = "x"
            · simp only [if_pos hx]
              cases rest with
              | nil =>
                simp only [if_neg (show ¬ (3 ≤ ([a, b] : List String).length) by simp)]
                exact ⟨_, rfl⟩
              | cons c rest2 =>
                simp only [if_pos (show 3 ≤ (a :: b :: c :: rest2).length by
                  simp only [List.length_cons]; omega), List.get?]
                exact ⟨_, rfl⟩
            · simp only [if_neg hx]
              by_cases hp : a = "p"
              · simp only [if_pos hp]
                cases rest with
                | nil =>
                  simp only [if_neg (show ¬ (4 ≤ ([a, b] : List String).length) by simp)]
                  exact ⟨_, rfl⟩
                | cons c rest2 =>
                  cases rest2 with
                  | nil =>
                    simp only [if_neg (show ¬ (4 ≤ ([a, b, c] : List String).length) by simp)]
                    exact ⟨_, rfl⟩
                  | cons d rest3 =>
                    simp only [if_pos (show 4 ≤ (a :: b :: c :: d :: rest3).length by
                      simp only [List.length_cons]; omega), List.get?]
                    cases hseq : lookupA (ensureHop count st (hopNumOf b) (hopNumIntOf b)).seqMap d with
                    | none =>
                      simp only [hseq]
                      exact ⟨_, rfl⟩
                    | some hopK =>
                      simp only [hseq]
                      cases hlat : parseFloatQ c with
                      | none =>
                        simp only [hlat]
                        exact ⟨_, rfl⟩
                      | some usec =>
                        simp only [hlat]
                        have hsome : (lookupA (ensureHop count st (hopNumOf b) (hopNumIntOf b)).hopMap hopK).isSome := by
                          rw [ensureHop_seqMap] at hseq
                          exact (ensureHop_lookup_isSome count st (hopNumOf b) (hopNumIntOf b) hopK).mpr
                            (Or.inr (hinv d hopK hseq))
                        obtain ⟨hopF, hF⟩ := Option.isSome_iff_exists.mp hsome
                        simp only [hF]
                        exact ⟨_, rfl⟩
              · simp only [if_neg hp]
                exact ⟨_, rfl⟩

theorem scanLines_some (count : Int) (ls : List String) (st : ParseState)
    (hinv : ∀ s k, lookupA st.seqMap s = some k → (lookupA st.hopMap k).isSome) :
    ∃ st1, scanLines count st ls = some st1 := by
  induction ls generalizing st with
  | nil => exact ⟨st, rfl⟩
  | cons l t ih =>
    obtain ⟨st2, h2⟩ := processLine_some count st l hinv
    obtain ⟨st1, h1⟩ := ih st2 (processLine_seqInv count st l st2 h2 hinv)
    refine ⟨st1, ?_⟩
    rw [scanLines, h2]
    exact h1

theorem scanLines_keys (count : Int) (ls : List String) (st st1 : ParseState)
    (h : scanLines count st ls = some st1) :
    ∀ key, (lookupA st1.hopMap key).isSome ↔
      ((∃ l ∈ ls, (lineIndex l).map itoa = some key) ∨ (lookupA st.hopMap key).isSome) := by
  induction ls generalizing st with
  | nil =>
    injection h with h
    subst h
    simp
  | cons l t ih =>
    rw [scanLines] at h
    cases hpl : processLine count st l with
    | none => rw [hpl] at h; cases h
    | some st2 =>
      rw [hpl] at h
      dsimp only at h
      intro key
      rw [ih st2 h key, (processLine_effects count st l st2 hpl).1 key]
      constructor
      · rintro (⟨l2, hl2, hkey⟩ | hkey | hold)
        · exact Or.inl ⟨l2, List.mem_cons_of_mem _ hl2, hkey⟩
        · exact Or.inl ⟨l, List.mem_cons_self _ _, hkey⟩
        · exact Or.inr hold
      · rintro (⟨l2, hl2, hkey⟩ | hold)
        · rcases List.mem_cons.mp hl2 with rfl | hl2
          · exact Or.inr (Or.inl hkey)
          · exact Or.inl ⟨l2, hl2, hkey⟩
        · exact Or.inr (Or.inr hold)

theorem scanLines_keyhop (count : Int) (ls : List String) (st st1 : ParseState)
    (h : scanLines count st ls = some st1)
    (hk : ∀ p ∈ st.hopMap, p.1 = itoa p.2.hop) :
    ∀ p ∈ st1.hopMap, p.1 = itoa p.2.hop := by
  induction ls generalizing st with
  | nil =>
    injection h with h
    subst h
    exact hk
  | cons l t ih =>
    rw [scanLines] at h
    cases hpl : processLine count st l with
    | none => rw [hpl] at h; cases h
    | some st2 =>
      rw [hpl] at h
      dsimp only at h
      exact ih st2 h ((processLine_effects count st l st2 hpl).2.1 hk)

theorem scanLines_received_nonp (count : Int) (ls : List String) (st st1 : ParseState)
    (h : scanLines count st ls = some st1)
    (hnp : ∀ l ∈ ls, hasPTag l = false) :
    st1.received = st.received := by
  induction ls generalizing st with
  | nil =>
    injection h with h
    subst h
    rfl
  | cons l t ih =>
    rw [scanLines] at h
    cases hpl : processLine count st l with
    | none => rw [hpl] at h; cases h
    | some st2 =>
      rw [hpl] at h
      dsimp only at h
      rw [ih st2 h (fun l2 hl2 => hnp l2 (List.mem_cons_of_mem _ hl2))]
      exact (processLine_effects count st l st2 hpl).2.2.1 (hnp l (List.mem_cons_self _ _))

/-- C10: `parseOutput` is total.  In the embedding every unguarded
positional field access and the one possible nil-map write are modelled
as a failing (`none`) parse, so this theorem states that for every
input string and every count the parse succeeds and returns a hop list:
all accesses are behind sufficient length guards, numeric parse
failures are absorbed, and every sequence binding always points at an
existing hop entry. -/
theorem c10_parse_total (output : String) (count : Int) :
    ∃ hops, parseOutputO output count = some hops ∧ parseOutput output count = hops := by
  obtain ⟨st, hst⟩ := scanLines_some count (splitLines output) initState
    (by intro s k hk; simp [initState, lookupA] at hk)
  have hO : parseOutputO output count =
      some (dedupHops none (collectHops (finalizeMap count st) (maxHopOf st.hopMap))) := by
    rw [parseOutputO, scanOutput, hst]
  exact ⟨_, hO, by rw [parseOutput, hO]; rfl⟩

/-- C7 (amended): after the scan, the hop map holds exactly the hops
whose 1-based converted index was announced by some processed line
(each entry's key is `itoa` of its `hop` field, and a key is present
iff it is `itoa n` for some announced index `n`).  Contiguity from 1 is
not guaranteed: a lone raw index 5 creates only hop 6
(`c7_counterexample`). -/
theorem c7_hop_index_provenance (output : String) (count : Int) (st : ParseState)
    (h : scanOutput output count = some st) :
    (∀ p ∈ st.hopMap, p.1 = itoa p.2.hop) ∧
    (∀ key, (lookupA st.hopMap key).isSome ↔
      ∃ n ∈ processedIndices output, itoa n = key) := by
  rw [scanOutput] at h
  constructor
  · exact scanLines_keyhop count (splitLines output) initState st h
      (by intro p hp; simp [initState] at hp)
  · intro key
    rw [scanLines_keys count (splitLines output) initState st h key]
    constructor
    · rintro (⟨l, hl, hkey⟩ | habs)
      · obtain ⟨n, hn, rfl⟩ := Option.map_eq_some'.mp hkey
        exact ⟨n, List.mem_filterMap.mpr ⟨l, hl, hn⟩, rfl⟩
      · simp [initState, lookupA] at habs
    · rintro ⟨n, hn, rfl⟩
      obtain ⟨l, hl, hn2⟩ := List.mem_filterMap.mp hn
      exact Or.inl ⟨l, hl, by rw [hn2]; rfl⟩

/-- Witness for `c7_hop_index_provenance` at the input of
`c7_counterexample`: the single line `h 5 1.2.3.4`. -/
theorem c7_hop_index_provenance_witness :
    (∀ p ∈ (⟨[("6", ⟨6, "1.2.3.4", "1.2.3.4", 100, 1, 0, 0, maxFloat64Q, 0, 0⟩)], [], []⟩ :
        ParseState).hopMap, p.1 = itoa p.2.hop) ∧
    (∀ key, (lookupA (⟨[("6", ⟨6, "1.2.3.4", "1.2.3.4", 100, 1, 0, 0, maxFloat64Q, 0, 0⟩)], [], []⟩ :
        ParseState).hopMap key).isSome ↔
      ∃ n ∈ processedIndices "h 5 1.2.3.4", itoa n = key) :=
  c7_hop_index_provenance "h 5 1.2.3.4" 1 _ (by decide)

/-! ### Loss derivation (claim C6) -/

theorem finalizeHop_loss (count : Int) (recv : List (String × Nat)) (key : String)
    (h : HopData) :
    (finalizeHop count recv key h).loss = lossOf count ((lookupA recv key).getD 0) := rfl

theorem finalizeHop_hop (count : Int) (recv : List (String × Nat)) (key : String)
    (h : HopData) : (finalizeHop count recv key h).hop = h.hop := by
  unfold finalizeHop
  dsimp only
  split <;> rfl

theorem mem_dedupHops (l : List HopData) (acc : Option HopData) (h : HopData)
    (hm : h ∈ dedupHops acc l) : h ∈ l := by
  induction l generalizing acc with
  | nil => simp [dedupHops] at hm
  | cons x t ih =>
    cases acc with
    | none =>
      rw [dedupHops] at hm
      rcases List.mem_cons.mp hm with hm | hm
      · exact hm ▸ List.mem_cons_self _ _
      · exact List.mem_cons_of_mem _ (ih _ hm)
    | some lh =>
      rw [dedupHops] at hm
      split at hm
      · exact List.mem_cons_of_mem _ (ih _ hm)
      · rcases List.mem_cons.mp hm with hm | hm
        · exact hm ▸ List.mem_cons_self _ _
        · exact List.mem_cons_of_mem _ (ih _ hm)

theorem mem_collectHops (m : List (String × HopData)) (mh : Int) (h : HopData)
    (hm : h ∈ collectHops m mh) : ∃ k, lookupA m k = some h := by
  obtain ⟨i, _, hi⟩ := List.mem_filterMap.mp hm
  exact ⟨_, hi⟩

theorem lossOf_zero (count : Int) : lossOf count 0 = 100 := by
  unfold lossOf
  split
  · rename_i hpos
    have hne : ((count : ℚ)) ≠ 0 := by
      have : (0 : ℚ) < (count : ℚ) := by exact_mod_cast hpos
      exact ne_of_gt this
    rw [Nat.cast_zero, sub_zero, mul_div_assoc, div_self hne, mul_one]
  · rfl

/-- Every hop of the final list is a finalized hop-map entry. -/
theorem mem_parseOutput (output : String) (count : Int) (h : HopData)
    (hm : h ∈ parseOutput output count) :
    ∃ st, scanOutput output count = some st ∧
      ∃ k h0, (k, h0) ∈ st.hopMap ∧ h = finalizeHop count st.received k h0 := by
  rw [parseOutput] at hm
  cases hO : parseOutputO output count with
  | none =>
    rw [hO] at hm
    simp at hm
  | some l =>
    rw [hO] at hm
    dsimp only [Option.getD] at hm
    rw [parseOutputO] at hO
    cases hs : scanOutput output count with
    | none => rw [hs] at hO; cases hO
    | some st =>
      rw [hs] at hO
      dsimp only at hO
      injection hO with hO
      subst hO
      have h1 := mem_dedupHops _ _ _ hm
      obtain ⟨k, hk⟩ := mem_collectHops _ _ _ h1
      have h2 := lookupA_mem _ _ _ hk
      rw [finalizeMap] at h2
      obtain ⟨⟨k0, h0⟩, hmem, heq⟩ := List.mem_map.mp h2
      dsimp only at heq
      injection heq with hk0 hh0
      exact ⟨st, rfl, k0, h0, hmem, hh0.symm⟩

/-- C6 (amended): every hop's final loss is `lossOf count received`
where `received` is the scan's counter for the hop's own index key,
`lossOf` being `100·(count − received)/count` when `count > 0` and `100`
when `count ≤ 0` (the claim said "100 when sent is 0"; the code also
returns 100 for negative counts, where the formula would give a
different value — `c6_counterexample`).  In particular
`received = sent > 0` gives loss 0, `received = 0` gives loss 100, and
for an input with no `p` records every hop has `received = 0` and loss
100. -/
theorem c6_loss_derivation :
    (∀ output count h, h ∈ parseOutput output count →
        h.loss = lossOf count (recvOf output count h.hop)) ∧
    (∀ output count h, noPRecords output → h ∈ parseOutput output count →
        h.loss = 100 ∧ recvOf output count h.hop = 0) ∧
    (∀ (count : Int) (n : ℕ), 0 < count → (n : Int) = count → lossOf count n = 0) ∧
    (∀ count : Int, lossOf count 0 = 100) := by
  have hkeyinv : ∀ (output : String) (count : Int) st, scanOutput output count = some st →
      ∀ p ∈ st.hopMap, p.1 = itoa p.2.hop := by
    intro output count st h
    rw [scanOutput] at h
    exact scanLines_keyhop count (splitLines output) initState st h
      (by intro p hp; simp [initState] at hp)
  have main : ∀ output count h, h ∈ parseOutput output count →
      h.loss = lossOf count (recvOf output count h.hop) := by
    intro output count h hm
    obtain ⟨st, hs, k, h0, hmem, rfl⟩ := mem_parseOutput output count h hm
    have hk : k = itoa h0.hop := hkeyinv output count st hs (k, h0) hmem
    rw [finalizeHop_loss, finalizeHop_hop]
    simp only [recvOf, hs, ← hk]
  refine ⟨main, ?_, ?_, lossOf_zero⟩
  · intro output count h hnp hm
    obtain ⟨st, hs, -⟩ := mem_parseOutput output count h hm
    have hrecv : st.received = [] := by
      have h2 := hs
      rw [scanOutput] at h2
      rw [scanLines_received_nonp count (splitLines output) initState st h2 hnp]
      rfl
    have hzero : recvOf output count h.hop = 0 := by
      simp [recvOf, hs, hrecv, lookupA]
    refine ⟨?_, hzero⟩
    rw [main output count h hm, hzero, lossOf_zero]
  · intro count n hpos heq
    unfold lossOf
    rw [if_pos hpos]
    have hq : (n : ℚ) = (count : ℚ) := by
      have := congrArg (fun z : Int => (z : ℚ)) heq
      simpa using this
    rw [hq, sub_self, mul_zero, zero_div]

/-- Witness for `c6_loss_derivation` at concrete runs: one correlated
sample with count 2 (loss 50%), a p-free input with count 3 (loss
100%), and the two boundary facts. -/
theorem c6_loss_derivation_witness :
    ((⟨1, "???", "", 50, 2, 5, 5, 5, 5, 0⟩ : HopData).loss =
      lossOf 2 (recvOf "x 0 1\np 0 5000 1" 2 (⟨1, "???", "", 50, 2, 5, 5, 5, 5, 0⟩ : HopData).hop)) ∧
    ((⟨1, "7.7.7.7", "7.7.7.7", 100, 3, 0, 0, 0, 0, 0⟩ : HopData).loss = 100 ∧
      recvOf "h 0 7.7.7.7" 3 (⟨1, "7.7.7.7", "7.7.7.7", 100, 3, 0, 0, 0, 0, 0⟩ : HopData).hop = 0) ∧
    lossOf 5 (5 : ℕ) = 0 ∧
    lossOf (-2) 0 = 100 :=
  ⟨c6_loss_derivation.1 "x 0 1\np 0 5000 1" 2 _ (by decide),
   c6_loss_derivation.2.1 "h 0 7.7.7.7" 3 _ (by unfold noPRecords; decide) (by decide),
   c6_loss_derivation.2.2.1 5 5 (by decide) (by decide),
   c6_loss_derivation.2.2.2 (-2)⟩

/-- Fidelity bridge for the extracted chain `aggregateSamples`: on a
concrete aligned run (the failing input of C4) the hop record the full
scan accumulates is exactly the fold of `updateHopStats` over the
parsed millisecond samples. -/
theorem aggregateSamples_agrees_with_scan :
    (scanOutput "x 0 1\np 0 10000 1\nx 0 2\np 0 10000 2\nx 0 3\np 0 40000 3" 3).map
      (fun st => lookupA st.hopMap "1") = some (some (aggregateSamples 3 [10, 10, 40])) := by
  decide

end MtrTool
